import Mathlib

/-!
Verification development for the telemetry data-model layer
(`internal/data/common.go` of the collector repository).

The Go code presents typed, mutable handle views over backing records:

* `AttributeValue` wraps a pointer `orig *otlpcommon.AttributeKeyValue`;
  copying the handle copies the pointer, so every copy aliases the same
  backing slot.  We model the pointer as an index (`orig : Nat`) into an
  explicit heap `AVHeap : List AttributeKeyValue`, and every method takes
  the heap explicitly; setters return the updated heap.
* `StringMap` wraps `orig *[]*otlpcommon.StringKeyValue`, a pointer to a
  slice of pointers to key/value records.  The claims under study concern
  the contents of that backing sequence, so we model the sequence as a
  `List StringKeyValueData` holding the record contents in order;
  in-place mutation of a record pointed to by slot `i` is modelled as
  replacing element `i` of the list.
* `InstrumentationLibrary` wraps a nilable pointer
  `orig *otlpcommon.InstrumentationLibrary`; we model it as `Option Nat`
  into its own heap, and each accessor returns `none` exactly when the Go
  code would dereference a nil pointer (a fatal panic).

Machine values: Go `int64` is modelled as `Int` (the code only stores and
reloads values, it never computes with them, so no wraparound arises),
`float64` as Lean `Float` (again only stored and reloaded), `string` as
`String`.
-/

/-- Go `AttributeValueType`, numerically equal to the proto enum
`otlp.AttributeKeyValue_ValueType` (STRING = 0, INT, DOUBLE, BOOL). -/
inductive AttributeValueType where
  | STRING
  | INT
  | DOUBLE
  | BOOL
deriving DecidableEq, Repr

/-- The backing wire record `otlpcommon.AttributeKeyValue` (the value part;
the `Key` field is unused by `AttributeValue` and omitted).  The Go field
`Type` is spelled `vtype` because `Type` is reserved in Lean. -/
structure AttributeKeyValue where
  vtype : AttributeValueType
  StringValue : String
  IntValue : Int
  DoubleValue : Float
  BoolValue : Bool

/-- The Go zero value of `otlpcommon.AttributeKeyValue` (enum 0 = STRING,
payloads at their zero values), as produced by `make([]AttributeKeyValue, n)`. -/
def AttributeKeyValue.zero : AttributeKeyValue :=
  { vtype := .STRING, StringValue := "", IntValue := 0, DoubleValue := 0.0, BoolValue := false }

instance : Inhabited AttributeKeyValue := ⟨AttributeKeyValue.zero⟩

/-- The arena of backing value records; a Go pointer is an index into it. -/
abbrev AVHeap := List AttributeKeyValue

/-- Dereference a slot pointer (out-of-range reads return the zero record;
valid handles always carry in-range indices). -/
def avSlot (H : AVHeap) (i : Nat) : AttributeKeyValue :=
  H.getD i AttributeKeyValue.zero

/-- Go `AttributeValue`: a struct holding one pointer to a backing slot.
A Go value copy of the struct copies the pointer, i.e. the `orig` index. -/
structure AttributeValue where
  orig : Nat
deriving DecidableEq, Repr

/-- Go `NewAttributeValueString`: allocate one fresh backing slot with the
discriminant and string payload set, return it together with a handle. -/
def NewAttributeValueString (H : AVHeap) (v : String) : AVHeap × AttributeValue :=
  (H ++ [{ AttributeKeyValue.zero with vtype := .STRING, StringValue := v }], ⟨H.length⟩)

/-- Go `NewAttributeValueInt`. -/
def NewAttributeValueInt (H : AVHeap) (v : Int) : AVHeap × AttributeValue :=
  (H ++ [{ AttributeKeyValue.zero with vtype := .INT, IntValue := v }], ⟨H.length⟩)

/-- Go `NewAttributeValueDouble`. -/
def NewAttributeValueDouble (H : AVHeap) (v : Float) : AVHeap × AttributeValue :=
  (H ++ [{ AttributeKeyValue.zero with vtype := .DOUBLE, DoubleValue := v }], ⟨H.length⟩)

/-- Go `NewAttributeValueBool`. -/
def NewAttributeValueBool (H : AVHeap) (v : Bool) : AVHeap × AttributeValue :=
  (H ++ [{ AttributeKeyValue.zero with vtype := .BOOL, BoolValue := v }], ⟨H.length⟩)

/-- Go `NewAttributeValueSlice(len)`: allocate `len` zero-valued backing
records in one pass (`origs := make([]AttributeKeyValue, len)`) and return
`len` handles, handle `i` pointing at slot `i` of the fresh block. -/
def NewAttributeValueSlice (H : AVHeap) (len : Nat) : AVHeap × List AttributeValue :=
  (H ++ List.replicate len AttributeKeyValue.zero,
   (List.range len).map (fun i => ⟨H.length + i⟩))

/-- Go `(a AttributeValue) Type()`: read the discriminant of the backing
slot (`Type` is reserved in Lean, hence the apostrophe). -/
def AttributeValue.Type' (a : AttributeValue) (H : AVHeap) : AttributeValueType :=
  (avSlot H a.orig).vtype

/-- Go `StringVal()`: returns `a.orig.StringValue` unconditionally, with no
discriminant check. -/
def AttributeValue.StringVal (a : AttributeValue) (H : AVHeap) : String :=
  (avSlot H a.orig).StringValue

/-- Go `IntVal()`: returns `a.orig.IntValue` unconditionally. -/
def AttributeValue.IntVal (a : AttributeValue) (H : AVHeap) : Int :=
  (avSlot H a.orig).IntValue

/-- Go `DoubleVal()`: returns `a.orig.DoubleValue` unconditionally. -/
def AttributeValue.DoubleVal (a : AttributeValue) (H : AVHeap) : Float :=
  (avSlot H a.orig).DoubleValue

/-- Go `BoolVal()`: returns `a.orig.BoolValue` unconditionally. -/
def AttributeValue.BoolVal (a : AttributeValue) (H : AVHeap) : Bool :=
  (avSlot H a.orig).BoolValue

/-- Go `SetString(v)`: `a.orig.Type = STRING; a.orig.StringValue = v` —
overwrite the discriminant and the string payload of the backing slot,
leaving the other payload fields of the slot as they were. -/
def AttributeValue.SetString (a : AttributeValue) (H : AVHeap) (v : String) : AVHeap :=
  H.set a.orig { avSlot H a.orig with vtype := .STRING, StringValue := v }

/-- Go `SetInt(v)`. -/
def AttributeValue.SetInt (a : AttributeValue) (H : AVHeap) (v : Int) : AVHeap :=
  H.set a.orig { avSlot H a.orig with vtype := .INT, IntValue := v }

/-- Go `SetDouble(v)`. -/
def AttributeValue.SetDouble (a : AttributeValue) (H : AVHeap) (v : Float) : AVHeap :=
  H.set a.orig { avSlot H a.orig with vtype := .DOUBLE, DoubleValue := v }

/-- Go `SetBool(v)`. -/
def AttributeValue.SetBool (a : AttributeValue) (H : AVHeap) (v : Bool) : AVHeap :=
  H.set a.orig { avSlot H a.orig with vtype := .BOOL, BoolValue := v }

/-! ## StringMap -/

/-- The backing wire record `otlpcommon.StringKeyValue`. -/
structure StringKeyValueData where
  Key : String
  Value : String
deriving DecidableEq, Repr

/-- The ordered backing sequence a `StringMap` points at (Go:
`*[]*otlpcommon.StringKeyValue`); each element is the contents of the
record its slot points to. -/
abbrev StringMapSeq := List StringKeyValueData

namespace StringMap

/-- Go `NewStringMap(attrMap)`: copy each map entry into a fresh record, in
the (unspecified) iteration order of the source map; `src` is the entry
list in that order.  A Go map never holds a key twice, so callers satisfy
`(src.map StringKeyValueData.Key).Nodup`. -/
def NewStringMap (src : List StringKeyValueData) : StringMapSeq :=
  src.map (fun p => { Key := p.Key, Value := p.Value })

/-- Go `Get(k)`: linear scan in current order, first match wins; returns
`none` where Go returns `(StringKeyValue{nil}, false)`. -/
def Get (l : StringMapSeq) (k : String) : Option StringKeyValueData :=
  l.find? (fun p => p.Key == k)

/-- Go `Delete(k)`: on the first match at index `i`, overwrite slot `i`
with the last element and drop the last slot (swap-remove), returning
`true`; on no match return the sequence unchanged and `false`. -/
def Delete (l : StringMapSeq) (k : String) : StringMapSeq × Bool :=
  match l.findIdx? (fun p => p.Key == k) with
  | some i => ((l.set i (l.getLastD ⟨"", ""⟩)).dropLast, true)
  | none => (l, false)

/-- Go `Insert(k, v)`: append a fresh record only when `Get(k)` finds
nothing; otherwise no action. -/
def Insert (l : StringMapSeq) (k v : String) : StringMapSeq :=
  if (Get l k).isSome then l else l ++ [{ Key := k, Value := v }]

/-- Go `Update(k, v)`: `Get(k)` returns a handle on the first matching
record; `SetValue(v)` overwrites that record's `Value` in place.  No
action when the key is absent. -/
def Update : StringMapSeq → String → String → StringMapSeq
  | [], _, _ => []
  | p :: rest, k, v =>
    if p.Key == k then { p with Value := v } :: rest else p :: Update rest k v

/-- Go `Upsert(k, v)`: `SetValue` on the found record, else append. -/
def Upsert (l : StringMapSeq) (k v : String) : StringMapSeq :=
  if (Get l k).isSome then Update l k v else l ++ [{ Key := k, Value := v }]

/-- Go `Len()`. -/
def Len (l : StringMapSeq) : Nat := l.length

/-- Go `Sort()`: `sort.SliceStable` with comparator `Key i < Key j`, i.e.
the stable sort of the sequence by key.  A stable sort is determined
uniquely by its comparator, so we embed it as insertion sort under the
total preorder `Key i ≤ Key j` (the negation-converse of the Go `<`).
`Sort` is reserved in Lean, hence the apostrophe. -/
def Sort' (l : StringMapSeq) : StringMapSeq :=
  List.insertionSort (fun a b => a.Key ≤ b.Key) l

/-- The key-uniqueness invariant of the backing sequence. -/
def KeysNodup (l : StringMapSeq) : Prop :=
  (l.map StringKeyValueData.Key).Nodup

instance (l : StringMapSeq) : Decidable (KeysNodup l) := by
  unfold KeysNodup; infer_instance

/-- The stores reachable from a constructor by public mutating operations
(Go maps have pairwise-distinct keys, hence the side condition on `new`). -/
inductive Reachable : StringMapSeq → Prop where
  | new (src : List StringKeyValueData) : KeysNodup src → Reachable (NewStringMap src)
  | insert (l : StringMapSeq) (k v : String) : Reachable l → Reachable (Insert l k v)
  | update (l : StringMapSeq) (k v : String) : Reachable l → Reachable (Update l k v)
  | upsert (l : StringMapSeq) (k v : String) : Reachable l → Reachable (Upsert l k v)
  | delete (l : StringMapSeq) (k : String) : Reachable l → Reachable (Delete l k).1

end StringMap

/-! ## InstrumentationLibrary -/

/-- The backing record `otlpcommon.InstrumentationLibrary`. -/
structure InstrumentationLibraryData where
  Name : String
  Version : String
deriving DecidableEq, Repr, Inhabited

/-- Arena of instrumentation-library records. -/
abbrev ILHeap := List InstrumentationLibraryData

/-- Go `InstrumentationLibrary`: wraps a nilable pointer
`orig *otlpcommon.InstrumentationLibrary`; `none` models a nil pointer. -/
structure InstrumentationLibrary where
  orig : Option Nat
deriving DecidableEq, Repr

/-- Go `NewInstrumentationLibrary()`: returns `InstrumentationLibrary{}`,
whose `orig` pointer is nil — identical to a zero-initialized instance. -/
def NewInstrumentationLibrary : InstrumentationLibrary :=
  { orig := none }

/-- Go package-private `newInstrumentationLibrary(orig)`: wrap an actual
record pointer. -/
def newInstrumentationLibraryOf (i : Nat) : InstrumentationLibrary :=
  { orig := some i }

/-- Go `Name()`: dereferences `il.orig`; `none` models the fatal nil-pointer
panic when the pointer is nil. -/
def InstrumentationLibrary.Name (il : InstrumentationLibrary) (H : ILHeap) : Option String :=
  match il.orig with
  | none => none
  | some i => some (H.getD i default).Name

/-- Go `SetName(r)`: writes through `il.orig`; `none` models the fatal
nil-pointer panic. -/
def InstrumentationLibrary.SetName (il : InstrumentationLibrary) (H : ILHeap) (r : String) :
    Option ILHeap :=
  match il.orig with
  | none => none
  | some i => some (H.set i { H.getD i default with Name := r })

/-- Go `Version()`. -/
def InstrumentationLibrary.Version (il : InstrumentationLibrary) (H : ILHeap) : Option String :=
  match il.orig with
  | none => none
  | some i => some (H.getD i default).Version

/-- Go `SetVersion(r)`. -/
def InstrumentationLibrary.SetVersion (il : InstrumentationLibrary) (H : ILHeap) (r : String) :
    Option ILHeap :=
  match il.orig with
  | none => none
  | some i => some (H.set i { H.getD i default with Version := r })

/-! ## Heap helper lemmas -/

theorem avSlot_set_self (H : AVHeap) (i : Nat) (s : AttributeKeyValue) (h : i < H.length) :
    avSlot (H.set i s) i = s := by
  simp [avSlot, List.getD, List.getElem?_set_self, h]

theorem avSlot_set_ne (H : AVHeap) (i j : Nat) (s : AttributeKeyValue) (h : j ≠ i) :
    avSlot (H.set i s) j = avSlot H j := by
  simp [avSlot, List.getD, List.getElem?_set_ne (Ne.symm h)]

theorem avSlot_append_singleton (H : AVHeap) (s : AttributeKeyValue) :
    avSlot (H ++ [s]) H.length = s := by
  simp [avSlot, List.getD, List.getElem?_append_right (Nat.le_refl H.length)]

theorem avSlot_append_replicate (H : AVHeap) (n i : Nat) (h : i < n) :
    avSlot (H ++ List.replicate n AttributeKeyValue.zero) (H.length + i)
      = AttributeKeyValue.zero := by
  simp [avSlot, List.getD, List.getElem?_append_right (Nat.le_add_right H.length i),
    List.getElem?_replicate, h]

/-! ## C1 -/

/-- C1: for a handle `h1` and any copy `h2` of it (a Go value copy shares
the `orig` pointer), each setter called on `h2` makes `h1`'s matching
getter return the new value and makes `h1`'s `Type()` equal the setter's
discriminant: the mutation is visible through every handle sharing the
same backing slot. -/
theorem aliasing_setter_visibility (H : AVHeap) (h1 h2 : AttributeValue)
    (halias : h2.orig = h1.orig) (hvalid : h1.orig < H.length) :
    (∀ v, h1.StringVal (h2.SetString H v) = v ∧ h1.Type' (h2.SetString H v) = .STRING)
  ∧ (∀ v, h1.IntVal (h2.SetInt H v) = v ∧ h1.Type' (h2.SetInt H v) = .INT)
  ∧ (∀ v, h1.DoubleVal (h2.SetDouble H v) = v ∧ h1.Type' (h2.SetDouble H v) = .DOUBLE)
  ∧ (∀ v, h1.BoolVal (h2.SetBool H v) = v ∧ h1.Type' (h2.SetBool H v) = .BOOL) := by
  refine ⟨fun v => ?_, fun v => ?_, fun v => ?_, fun v => ?_⟩ <;>
    simp [AttributeValue.StringVal, AttributeValue.IntVal, AttributeValue.DoubleVal,
      AttributeValue.BoolVal, AttributeValue.Type', AttributeValue.SetString,
      AttributeValue.SetInt, AttributeValue.SetDouble, AttributeValue.SetBool,
      halias, avSlot_set_self H h1.orig _ hvalid]

/-- Witness for C1 at a concrete heap: one slot, two equal handles. -/
theorem aliasing_setter_visibility_witness :
    (⟨0⟩ : AttributeValue).StringVal
        ((⟨0⟩ : AttributeValue).SetString [AttributeKeyValue.zero] "x") = "x"
  ∧ (⟨0⟩ : AttributeValue).Type'
        ((⟨0⟩ : AttributeValue).SetString [AttributeKeyValue.zero] "x") = .STRING :=
  (aliasing_setter_visibility [AttributeKeyValue.zero] ⟨0⟩ ⟨0⟩ rfl (by decide)).1 "x"

/-! ## C5 -/

/-- C5: each setter overwrites exactly two fields of the backing slot —
the discriminant and the payload matching the setter's type — and leaves
every other payload field of that slot unchanged (the stale value stays
stored). -/
theorem setter_frame_effect (H : AVHeap) (a : AttributeValue)
    (hvalid : a.orig < H.length) :
    (∀ v, (avSlot (a.SetString H v) a.orig).vtype = .STRING
        ∧ (avSlot (a.SetString H v) a.orig).StringValue = v
        ∧ (avSlot (a.SetString H v) a.orig).IntValue = (avSlot H a.orig).IntValue
        ∧ (avSlot (a.SetString H v) a.orig).DoubleValue = (avSlot H a.orig).DoubleValue
        ∧ (avSlot (a.SetString H v) a.orig).BoolValue = (avSlot H a.orig).BoolValue)
  ∧ (∀ v, (avSlot (a.SetInt H v) a.orig).vtype = .INT
        ∧ (avSlot (a.SetInt H v) a.orig).IntValue = v
        ∧ (avSlot (a.SetInt H v) a.orig).StringValue = (avSlot H a.orig).StringValue
        ∧ (avSlot (a.SetInt H v) a.orig).DoubleValue = (avSlot H a.orig).DoubleValue
        ∧ (avSlot (a.SetInt H v) a.orig).BoolValue = (avSlot H a.orig).BoolValue)
  ∧ (∀ v, (avSlot (a.SetDouble H v) a.orig).vtype = .DOUBLE
        ∧ (avSlot (a.SetDouble H v) a.orig).DoubleValue = v
        ∧ (avSlot (a.SetDouble H v) a.orig).StringValue = (avSlot H a.orig).StringValue
        ∧ (avSlot (a.SetDouble H v) a.orig).IntValue = (avSlot H a.orig).IntValue
        ∧ (avSlot (a.SetDouble H v) a.orig).BoolValue = (avSlot H a.orig).BoolValue)
  ∧ (∀ v, (avSlot (a.SetBool H v) a.orig).vtype = .BOOL
        ∧ (avSlot (a.SetBool H v) a.orig).BoolValue = v
        ∧ (avSlot (a.SetBool H v) a.orig).StringValue = (avSlot H a.orig).StringValue
        ∧ (avSlot (a.SetBool H v) a.orig).IntValue = (avSlot H a.orig).IntValue
        ∧ (avSlot (a.SetBool H v) a.orig).DoubleValue = (avSlot H a.orig).DoubleValue) := by
  refine ⟨fun v => ?_, fun v => ?_, fun v => ?_, fun v => ?_⟩ <;>
    simp [AttributeValue.SetString, AttributeValue.SetInt, AttributeValue.SetDouble,
      AttributeValue.SetBool, avSlot_set_self H a.orig _ hvalid]

/-- Witness for C5: `SetInt 5` on a one-slot heap whose slot holds a
string payload leaves the stale string (and the other payloads) in place. -/
theorem setter_frame_effect_witness :
    (avSlot ((⟨0⟩ : AttributeValue).SetInt
        [{ AttributeKeyValue.zero with StringValue := "old" }] 5) 0).vtype = .INT
  ∧ (avSlot ((⟨0⟩ : AttributeValue).SetInt
        [{ AttributeKeyValue.zero with StringValue := "old" }] 5) 0).IntValue = 5
  ∧ (avSlot ((⟨0⟩ : AttributeValue).SetInt
        [{ AttributeKeyValue.zero with StringValue := "old" }] 5) 0).StringValue
      = (avSlot [{ AttributeKeyValue.zero with StringValue := "old" }] 0).StringValue
  ∧ (avSlot ((⟨0⟩ : AttributeValue).SetInt
        [{ AttributeKeyValue.zero with StringValue := "old" }] 5) 0).DoubleValue
      = (avSlot [{ AttributeKeyValue.zero with StringValue := "old" }] 0).DoubleValue
  ∧ (avSlot ((⟨0⟩ : AttributeValue).SetInt
        [{ AttributeKeyValue.zero with StringValue := "old" }] 5) 0).BoolValue
      = (avSlot [{ AttributeKeyValue.zero with StringValue := "old" }] 0).BoolValue :=
  (setter_frame_effect [{ AttributeKeyValue.zero with StringValue := "old" }] ⟨0⟩
    (by decide)).2.1 5

/-! ## C6 -/

/-- C6: each getter returns the matching payload field of the backing slot
unconditionally, never inspecting the discriminant; a mismatched getter is
not an error and yields the stale or default value stored in that payload
field (illustrated after a type-switching setter and on a freshly
constructed handle). -/
theorem getters_unconditional (H : AVHeap) (a : AttributeValue)
    (hvalid : a.orig < H.length) :
    (a.StringVal H = (avSlot H a.orig).StringValue
      ∧ a.IntVal H = (avSlot H a.orig).IntValue
      ∧ a.DoubleVal H = (avSlot H a.orig).DoubleValue
      ∧ a.BoolVal H = (avSlot H a.orig).BoolValue)
  ∧ (∀ v : Int, a.StringVal (a.SetInt H v) = a.StringVal H)
  ∧ (∀ v : String, a.IntVal (a.SetString H v) = a.IntVal H)
  ∧ (∀ v : Bool, a.DoubleVal (a.SetBool H v) = a.DoubleVal H)
  ∧ (∀ v : Float, a.BoolVal (a.SetDouble H v) = a.BoolVal H)
  ∧ (∀ (H0 : AVHeap) (v : String),
        ((NewAttributeValueString H0 v).2).IntVal (NewAttributeValueString H0 v).1 = 0
      ∧ ((NewAttributeValueString H0 v).2).DoubleVal (NewAttributeValueString H0 v).1 = 0.0
      ∧ ((NewAttributeValueString H0 v).2).BoolVal (NewAttributeValueString H0 v).1 = false) := by
  refine ⟨⟨rfl, rfl, rfl, rfl⟩, fun v => ?_, fun v => ?_, fun v => ?_, fun v => ?_,
    fun H0 v => ?_⟩ <;>
    simp [AttributeValue.StringVal, AttributeValue.IntVal, AttributeValue.DoubleVal,
      AttributeValue.BoolVal, AttributeValue.SetString, AttributeValue.SetInt,
      AttributeValue.SetDouble, AttributeValue.SetBool, NewAttributeValueString,
      avSlot_set_self H a.orig _ hvalid, avSlot_append_singleton, AttributeKeyValue.zero]

/-- Witness for C6: on a slot holding discriminant INT, `StringVal` still
returns the stored string payload without error. -/
theorem getters_unconditional_witness :
    (⟨0⟩ : AttributeValue).StringVal
        [{ AttributeKeyValue.zero with vtype := .INT, StringValue := "stale" }]
      = (avSlot [{ AttributeKeyValue.zero with vtype := .INT, StringValue := "stale" }]
          0).StringValue :=
  ((getters_unconditional
      [{ AttributeKeyValue.zero with vtype := .INT, StringValue := "stale" }] ⟨0⟩
      (by decide)).1).1

/-! ## C8 -/

/-- C8: `NewAttributeValueSlice(n)` returns `n` handles over one freshly
allocated block of `n` zero-valued slots; handle `i` points at slot
`base + i`, so distinct handles point at distinct slots, and any setter
applied through handle `i` leaves the whole slot observed through handle
`j ≠ i` (discriminant and every payload) unchanged. -/
theorem batch_slice_independence (H : AVHeap) (n : Nat) :
    ((NewAttributeValueSlice H n).2).length = n
  ∧ ((NewAttributeValueSlice H n).1).length = H.length + n
  ∧ (∀ i, i < n → (((NewAttributeValueSlice H n).2).getD i ⟨0⟩).orig = H.length + i)
  ∧ (∀ i, i < n →
       avSlot (NewAttributeValueSlice H n).1 (H.length + i) = AttributeKeyValue.zero)
  ∧ (∀ i j, i < n → j < n → i ≠ j →
       (((NewAttributeValueSlice H n).2).getD i ⟨0⟩).orig
         ≠ (((NewAttributeValueSlice H n).2).getD j ⟨0⟩).orig)
  ∧ (∀ i j a b, i < n → j < n → i ≠ j →
       a = ((NewAttributeValueSlice H n).2).getD i ⟨0⟩ →
       b = ((NewAttributeValueSlice H n).2).getD j ⟨0⟩ →
       (∀ v, avSlot (a.SetString (NewAttributeValueSlice H n).1 v) b.orig
           = avSlot (NewAttributeValueSlice H n).1 b.orig)
     ∧ (∀ v, avSlot (a.SetInt (NewAttributeValueSlice H n).1 v) b.orig
           = avSlot (NewAttributeValueSlice H n).1 b.orig)
     ∧ (∀ v, avSlot (a.SetDouble (NewAttributeValueSlice H n).1 v) b.orig
           = avSlot (NewAttributeValueSlice H n).1 b.orig)
     ∧ (∀ v, avSlot (a.SetBool (NewAttributeValueSlice H n).1 v) b.orig
           = avSlot (NewAttributeValueSlice H n).1 b.orig)) := by
  have hget : ∀ i, i < n →
      ((NewAttributeValueSlice H n).2).getD i ⟨0⟩ = (⟨H.length + i⟩ : AttributeValue) := by
    intro i hi
    simp [NewAttributeValueSlice, List.getD, List.getElem?_map, List.getElem?_range hi]
  refine ⟨by simp [NewAttributeValueSlice], by simp [NewAttributeValueSlice],
    fun i hi => by rw [hget i hi], fun i hi => ?_, fun i j hi hj hne => ?_,
    fun i j a b hi hj hne ha hb => ?_⟩
  · exact avSlot_append_replicate H n i hi
  · rw [hget i hi, hget j hj]
    intro h
    exact hne (Nat.add_left_cancel h)
  · subst ha hb
    rw [hget i hi, hget j hj]
    have hne' : H.length + j ≠ H.length + i := fun h => hne (Nat.add_left_cancel h).symm
    exact ⟨fun v => avSlot_set_ne _ _ _ _ hne', fun v => avSlot_set_ne _ _ _ _ hne',
      fun v => avSlot_set_ne _ _ _ _ hne', fun v => avSlot_set_ne _ _ _ _ hne'⟩

/-- Witness for C8: a two-slot batch over the empty heap; `SetString` on
handle 0 leaves the slot of handle 1 unchanged. -/
theorem batch_slice_independence_witness :
    (∀ v, avSlot ((((NewAttributeValueSlice [] 2).2).getD 0 ⟨0⟩).SetString
          (NewAttributeValueSlice [] 2).1 v)
          ((((NewAttributeValueSlice [] 2).2).getD 1 ⟨0⟩)).orig
        = avSlot (NewAttributeValueSlice [] 2).1
          ((((NewAttributeValueSlice [] 2).2).getD 1 ⟨0⟩)).orig) :=
  ((batch_slice_independence [] 2).2.2.2.2.2 0 1
    (((NewAttributeValueSlice [] 2).2).getD 0 ⟨0⟩)
    (((NewAttributeValueSlice [] 2).2).getD 1 ⟨0⟩)
    (by decide) (by decide) (by decide) rfl rfl).1

/-! ## C9 -/

/-- C9: `NewInstrumentationLibrary()` returns an instance whose backing
pointer is nil — identical to a zero-initialized instance — so `Name`,
`SetName`, `Version` and `SetVersion` on its result all hit the fatal
nil-dereference path (modelled as `none`). -/
theorem newInstrumentationLibrary_nil_backing :
    NewInstrumentationLibrary = ({ orig := none } : InstrumentationLibrary)
  ∧ (∀ H : ILHeap, NewInstrumentationLibrary.Name H = none)
  ∧ (∀ (H : ILHeap) (r : String), NewInstrumentationLibrary.SetName H r = none)
  ∧ (∀ H : ILHeap, NewInstrumentationLibrary.Version H = none)
  ∧ (∀ (H : ILHeap) (r : String), NewInstrumentationLibrary.SetVersion H r = none) :=
  ⟨rfl, fun _ => rfl, fun _ _ => rfl, fun _ => rfl, fun _ _ => rfl⟩

/-! ## StringMap helper lemmas -/

theorem findIdx?_cons_zero {α : Type} (p : α → Bool) (x : α) (xs : List α) :
    (x :: xs).findIdx? p = if p x then some 0 else (xs.findIdx? p).map (· + 1) := by
  rw [List.findIdx?_cons, List.findIdx?_succ]

theorem findIdx?_some_spec {α : Type} (p : α → Bool) :
    ∀ (l : List α) (i : Nat), l.findIdx? p = some i →
      ∃ hlt : i < l.length, p (l.get ⟨i, hlt⟩) = true := by
  intro l
  induction l with
  | nil => intro i h; simp [List.findIdx?] at h
  | cons x xs ih =>
    intro i h
    rw [findIdx?_cons_zero] at h
    by_cases hx : p x = true
    · simp [hx] at h
      subst h
      exact ⟨Nat.succ_pos _, hx⟩
    · simp [hx] at h
      obtain ⟨j, hj, rfl⟩ := h
      obtain ⟨hlt, hpj⟩ := ih j hj
      exact ⟨Nat.succ_lt_succ hlt, hpj⟩

theorem get_eq_none_iff_findIdx?_none (l : StringMapSeq) (k : String) :
    StringMap.Get l k = none ↔ l.findIdx? (fun p => p.Key == k) = none := by
  rw [StringMap.Get, List.find?_eq_none, List.findIdx?_eq_none_iff]
  constructor <;> intro h x hx
  · exact Bool.not_eq_true _ ▸ (by simpa using h x hx)
  · simp [h x hx]

theorem get_isSome_of_findIdx?_some (l : StringMapSeq) (k : String) (i : Nat)
    (h : l.findIdx? (fun p => p.Key == k) = some i) :
    (StringMap.Get l k).isSome = true := by
  rw [Option.isSome_iff_ne_none]
  intro hnone
  rw [get_eq_none_iff_findIdx?_none l k] at hnone
  simp [hnone] at h

/-! ## C2 -/

/-- C2: `Insert(k, v)` is a silent no-op when `Get(k)` finds an existing
entry (the stored value is not overwritten), and otherwise appends the new
pair at the end, leaving all existing elements and their order unchanged;
in particular inserting `"a" ↦ "1"` then `"a" ↦ "2"` into an empty store
leaves `Get("a")` returning `"1"`. -/
theorem insert_no_overwrite :
    (∀ (l : StringMapSeq) (k v : String),
        ((StringMap.Get l k).isSome = true → StringMap.Insert l k v = l)
      ∧ ((StringMap.Get l k).isSome = false →
           StringMap.Insert l k v = l ++ [{ Key := k, Value := v }]))
  ∧ StringMap.Get
      (StringMap.Insert (StringMap.Insert (StringMap.NewStringMap []) "a" "1") "a" "2") "a"
      = some { Key := "a", Value := "1" } := by
  refine ⟨fun l k v => ⟨fun h => ?_, fun h => ?_⟩, by decide⟩ <;>
    simp [StringMap.Insert, h]

/-- Witness for C2: inserting a duplicate key into a concrete one-entry
store leaves the store unchanged. -/
theorem insert_no_overwrite_witness :
    StringMap.Insert [{ Key := "a", Value := "1" }] "a" "2"
      = [{ Key := "a", Value := "1" }] :=
  (insert_no_overwrite.1 [{ Key := "a", Value := "1" }] "a" "2").1 (by decide)

/-! ## C7 -/

/-- Go `Update` rewrites the value of the first record whose key matches,
in place; positionally that is `List.set` at the found index. -/
theorem update_eq_set :
    ∀ (l : StringMapSeq) (k v : String) (i : Nat),
      l.findIdx? (fun p => p.Key == k) = some i →
      StringMap.Update l k v = l.set i { Key := k, Value := v } := by
  intro l
  induction l with
  | nil => intro k v i h; simp [List.findIdx?] at h
  | cons x xs ih =>
    intro k v i h
    rw [findIdx?_cons_zero] at h
    by_cases hx : (x.Key == k) = true
    · simp [hx] at h
      have hkey : x.Key = k := eq_of_beq hx
      simp [StringMap.Update, hx, ← h, ← hkey]
    · simp [hx] at h
      obtain ⟨j, hj, rfl⟩ := h
      simp [StringMap.Update, hx, List.set_cons_succ, ih k v j hj]

/-- C7: `Upsert(k, v)` overwrites the first matching record's value in
place when the key is present (update semantics) and appends `(k, v)` at
the end when it is absent (insert semantics); in particular upserting
`"a" ↦ "1"` then `"a" ↦ "2"` into an empty store leaves `Get("a")`
returning `"2"`. -/
theorem upsert_overwrite :
    (∀ (l : StringMapSeq) (k v : String) (i : Nat),
        l.findIdx? (fun p => p.Key == k) = some i →
        StringMap.Upsert l k v = l.set i { Key := k, Value := v })
  ∧ (∀ (l : StringMapSeq) (k v : String),
        StringMap.Get l k = none →
        StringMap.Upsert l k v = l ++ [{ Key := k, Value := v }])
  ∧ StringMap.Get
      (StringMap.Upsert (StringMap.Upsert (StringMap.NewStringMap []) "a" "1") "a" "2") "a"
      = some { Key := "a", Value := "2" } := by
  refine ⟨fun l k v i h => ?_, fun l k v h => ?_, by decide⟩
  · rw [StringMap.Upsert, if_pos (get_isSome_of_findIdx?_some l k i h),
      update_eq_set l k v i h]
  · simp [StringMap.Upsert, h]

/-- Witness for C7: upserting an existing key in a concrete one-entry
store overwrites the stored value in place. -/
theorem upsert_overwrite_witness :
    StringMap.Upsert [{ Key := "a", Value := "1" }] "a" "2"
      = [{ Key := "a", Value := "1" }].set 0 { Key := "a", Value := "2" } :=
  upsert_overwrite.1 [{ Key := "a", Value := "1" }] "a" "2" 0 (by decide)

theorem dropLast_append_getLastD {α : Type} (l : List α) (d : α) (h : l ≠ []) :
    l.dropLast ++ [l.getLastD d] = l := by
  have hg : l.getLastD d = l.getLast h := by
    rw [List.getLastD_eq_getLast?, List.getLast?_eq_getLast _ h]; rfl
  rw [hg, List.dropLast_concat_getLast h]

/-- Swap-remove (`set i last` followed by `dropLast`) is a permutation of
plain removal at index `i`. -/
theorem set_getLastD_dropLast_perm {α : Type} :
    ∀ (l : List α) (d : α) (i : Nat), i < l.length →
      ((l.set i (l.getLastD d)).dropLast).Perm (l.eraseIdx i) := by
  intro l
  induction l with
  | nil => intro d i h; simp at h
  | cons a t ih =>
    intro d i h
    cases t with
    | nil =>
      have hi : i = 0 := by simpa using h
      subst hi
      simp
    | cons b t2 =>
      rw [List.getLastD_cons]
      cases i with
      | zero =>
        rw [List.set_cons_zero, List.eraseIdx_cons_zero,
          List.dropLast_cons_of_ne_nil (List.cons_ne_nil b t2)]
        have h1 : List.Perm (((b :: t2).getLastD a) :: (b :: t2).dropLast)
            ((b :: t2).dropLast ++ [(b :: t2).getLastD a]) :=
          (List.perm_append_singleton _ _).symm
        have h2 : (b :: t2).dropLast ++ [(b :: t2).getLastD a] = b :: t2 :=
          dropLast_append_getLastD _ _ (List.cons_ne_nil b t2)
        exact h1.trans (List.Perm.of_eq h2)
      | succ j =>
        have hj : j < (b :: t2).length := Nat.lt_of_succ_lt_succ h
        rw [List.set_cons_succ, List.eraseIdx_cons_succ,
          List.dropLast_cons_of_ne_nil (List.ne_nil_of_length_pos (by
            rw [List.length_set]; exact Nat.lt_of_le_of_lt (Nat.zero_le j) hj))]
        exact (ih a j hj).cons a

/-- The sequence left by a successful `Delete` is a permutation of the
original sequence with the first matching slot removed. -/
theorem delete_perm_eraseIdx (l : StringMapSeq) (k : String) (i : Nat)
    (h : l.findIdx? (fun p => p.Key == k) = some i) :
    ((StringMap.Delete l k).1).Perm (l.eraseIdx i) := by
  obtain ⟨hlt, _⟩ := findIdx?_some_spec _ l i h
  rw [StringMap.Delete, h]
  exact set_getLastD_dropLast_perm l ⟨"", ""⟩ i hlt

/-! ## C3 -/

/-- C3: `Delete(k)` on a present key overwrites the first matching slot
with the sequence's last element, shrinks the sequence by exactly one and
returns `true`, after which `Get(k)` finds nothing; on an absent key it
returns `false` and leaves the backing sequence unchanged.  (The key
uniqueness invariant of reachable stores is assumed for the `Get`-after
part.) -/
theorem delete_semantics :
    (∀ (l : StringMapSeq) (k : String) (i : Nat), StringMap.KeysNodup l →
        l.findIdx? (fun p => p.Key == k) = some i →
        StringMap.Delete l k = ((l.set i (l.getLastD ⟨"", ""⟩)).dropLast, true)
      ∧ (StringMap.Delete l k).1.length = l.length - 1
      ∧ StringMap.Get (StringMap.Delete l k).1 k = none)
  ∧ (∀ (l : StringMapSeq) (k : String),
        StringMap.Get l k = none → StringMap.Delete l k = (l, false)) := by
  constructor
  · intro l k i hnodup hfind
    have hdel : StringMap.Delete l k = ((l.set i (l.getLastD ⟨"", ""⟩)).dropLast, true) := by
      rw [StringMap.Delete, hfind]
    refine ⟨hdel, ?_, ?_⟩
    · rw [hdel]
      simp [List.length_dropLast, List.length_set]
    · obtain ⟨hlt, hpi⟩ := findIdx?_some_spec _ l i hfind
      have hperm := delete_perm_eraseIdx l k i hfind
      rw [StringMap.Get, List.find?_eq_none]
      intro p hp hpk
      have hp' : p ∈ l.eraseIdx i := hperm.mem_iff.mp hp
      obtain ⟨j, hj, hji, hpj⟩ := List.mem_eraseIdx_iff_getElem.mp hp'
      have hkeq : p.Key = k := eq_of_beq hpk
      have hieq : (l.get ⟨i, hlt⟩).Key = k := eq_of_beq hpi
      have hj' : j < (List.map StringKeyValueData.Key l).length := by simpa using hj
      have hi' : i < (List.map StringKeyValueData.Key l).length := by simpa using hlt
      have hmap : (List.map StringKeyValueData.Key l).get ⟨j, hj'⟩
          = (List.map StringKeyValueData.Key l).get ⟨i, hi'⟩ := by
        simp only [List.get_eq_getElem, List.getElem_map]
        rw [hpj, hkeq]
        exact hieq.symm
      have hnodup' : (List.map StringKeyValueData.Key l).Nodup := hnodup
      exact hji (Fin.mk_eq_mk.mp (hnodup'.get_inj_iff.mp hmap))
  · intro l k h
    rw [StringMap.Delete, (get_eq_none_iff_findIdx?_none l k).mp h]

/-- Witness for C3: deleting `"a"` from a concrete two-entry store moves
the last entry into slot 0, shrinks the store to one entry, and makes
`Get("a")` miss. -/
theorem delete_semantics_witness :
    StringMap.Delete [{ Key := "a", Value := "1" }, { Key := "b", Value := "2" }] "a"
        = ((([{ Key := "a", Value := "1" }, { Key := "b", Value := "2" }] :
              StringMapSeq).set 0
            (([{ Key := "a", Value := "1" }, { Key := "b", Value := "2" }] :
              StringMapSeq).getLastD ⟨"", ""⟩)).dropLast, true)
  ∧ (StringMap.Delete
        [{ Key := "a", Value := "1" }, { Key := "b", Value := "2" }] "a").1.length
      = ([{ Key := "a", Value := "1" }, { Key := "b", Value := "2" }] :
          StringMapSeq).length - 1
  ∧ StringMap.Get (StringMap.Delete
        [{ Key := "a", Value := "1" }, { Key := "b", Value := "2" }] "a").1 "a" = none :=
  delete_semantics.1 [{ Key := "a", Value := "1" }, { Key := "b", Value := "2" }] "a" 0
    (by decide) (by decide)

/-! ## C10 -/

/-- Go `Update` rewrites a value in place, so it leaves the key sequence
untouched. -/
theorem update_map_key (l : StringMapSeq) (k v : String) :
    (StringMap.Update l k v).map StringKeyValueData.Key
      = l.map StringKeyValueData.Key := by
  induction l with
  | nil => rfl
  | cons x xs ih =>
    by_cases hx : (x.Key == k) = true <;> simp [StringMap.Update, hx, ih]

/-- Appending a pair whose key misses every stored key keeps keys nodup. -/
theorem keysNodup_append_of_get_none (l : StringMapSeq) (k v : String)
    (hget : StringMap.Get l k = none) (h : StringMap.KeysNodup l) :
    StringMap.KeysNodup (l ++ [{ Key := k, Value := v }]) := by
  have hkey : ∀ p ∈ l, ¬p.Key = k := by
    rw [StringMap.Get, List.find?_eq_none] at hget
    intro p hp hpk
    exact hget p hp (by simp [hpk])
  have : StringMap.KeysNodup (l ++ [{ Key := k, Value := v }]) ↔
      StringMap.KeysNodup l ∧ k ∉ l.map StringKeyValueData.Key := by
    simp [StringMap.KeysNodup, List.nodup_append]
  refine this.mpr ⟨h, fun hk => ?_⟩
  obtain ⟨p, hp, hpk⟩ := List.mem_map.mp hk
  exact hkey p hp hpk

theorem keysNodup_insert (l : StringMapSeq) (k v : String)
    (h : StringMap.KeysNodup l) : StringMap.KeysNodup (StringMap.Insert l k v) := by
  by_cases hg : (StringMap.Get l k).isSome = true
  · simpa [StringMap.Insert, hg] using h
  · have hnone : StringMap.Get l k = none := by
      rw [← Option.not_isSome_iff_eq_none]
      simpa using hg
    rw [StringMap.Insert, if_neg (by simpa using hg)]
    exact keysNodup_append_of_get_none l k v hnone h

theorem keysNodup_upsert (l : StringMapSeq) (k v : String)
    (h : StringMap.KeysNodup l) : StringMap.KeysNodup (StringMap.Upsert l k v) := by
  by_cases hg : (StringMap.Get l k).isSome = true
  · rw [StringMap.Upsert, if_pos hg]
    show ((StringMap.Update l k v).map StringKeyValueData.Key).Nodup
    rw [update_map_key]
    exact h
  · have hnone : StringMap.Get l k = none := by
      rw [← Option.not_isSome_iff_eq_none]
      simpa using hg
    rw [StringMap.Upsert, if_neg (by simpa using hg)]
    exact keysNodup_append_of_get_none l k v hnone h

theorem keysNodup_delete (l : StringMapSeq) (k : String)
    (h : StringMap.KeysNodup l) : StringMap.KeysNodup (StringMap.Delete l k).1 := by
  cases hf : l.findIdx? (fun p => p.Key == k) with
  | none =>
    rw [StringMap.Delete, hf]
    exact h
  | some i =>
    have hperm := delete_perm_eraseIdx l k i hf
    have herase : StringMap.KeysNodup (l.eraseIdx i) :=
      List.Nodup.sublist ((l.eraseIdx_sublist i).map StringKeyValueData.Key) h
    exact (hperm.map StringKeyValueData.Key).nodup_iff.mpr herase

/-- C10: key uniqueness is an invariant — every store built by
`NewStringMap` from a source mapping (whose keys are unique) has
pairwise-distinct keys, and `Insert`, `Update`, `Upsert` and `Delete` all
preserve that, so no reachable sequence of public operations produces two
entries with the same key. -/
theorem reachable_keys_nodup :
    ∀ l : StringMapSeq, StringMap.Reachable l → StringMap.KeysNodup l := by
  intro l h
  induction h with
  | new src hsrc =>
    simpa [StringMap.NewStringMap, StringMap.KeysNodup, List.map_map,
      Function.comp] using hsrc
  | insert l k v _ ih => exact keysNodup_insert l k v ih
  | update l k v _ ih =>
    show ((StringMap.Update l k v).map StringKeyValueData.Key).Nodup
    rw [update_map_key]
    exact ih
  | upsert l k v _ ih => exact keysNodup_upsert l k v ih
  | delete l k _ ih => exact keysNodup_delete l k ih

/-- Witness for C10: a concrete reachable store (new, insert, upsert,
delete) has pairwise-distinct keys. -/
theorem reachable_keys_nodup_witness :
    StringMap.KeysNodup
      (StringMap.Delete
        (StringMap.Upsert
          (StringMap.Insert (StringMap.NewStringMap []) "a" "1") "b" "2") "a").1 :=
  reachable_keys_nodup _
    (StringMap.Reachable.delete _ "a"
      (StringMap.Reachable.upsert _ "b" "2"
        (StringMap.Reachable.insert _ "a" "1"
          (StringMap.Reachable.new [] (by decide)))))

/-! ## C4 -/

/-- Inserting an element into a list moves no equal-key element across
another: the filter at any key `k` gains the new element at the front when
its key is `k` and is untouched otherwise. -/
theorem filter_orderedInsert_key (k : String) (a : StringKeyValueData) :
    ∀ l : List StringKeyValueData,
      (List.orderedInsert (fun x y => x.Key ≤ y.Key) a l).filter (fun p => p.Key == k)
        = if (a.Key == k) = true then a :: l.filter (fun p => p.Key == k)
          else l.filter (fun p => p.Key == k) := by
  intro l
  induction l with
  | nil =>
    rw [List.orderedInsert_nil]
    by_cases hqa : (a.Key == k) = true
    · rw [if_pos hqa, List.filter_cons, if_pos hqa]
    · rw [if_neg hqa, List.filter_cons, if_neg hqa]
  | cons b t ih =>
    rw [List.orderedInsert]
    by_cases hab : a.Key ≤ b.Key
    · rw [if_pos hab]
      by_cases hqa : (a.Key == k) = true
      · rw [List.filter_cons, if_pos hqa]
      · rw [List.filter_cons, if_neg hqa]
    · rw [if_neg hab]
      by_cases hqa : (a.Key == k) = true
      · by_cases hqb : (b.Key == k) = true
        · exact absurd (le_of_eq ((eq_of_beq hqa).trans (eq_of_beq hqb).symm)) hab
        · rw [List.filter_cons, if_neg hqb, ih, if_pos hqa, if_pos hqa,
            List.filter_cons, if_neg hqb]
      · by_cases hqb : (b.Key == k) = true
        · rw [List.filter_cons, if_pos hqb, ih, if_neg hqa, if_neg hqa,
            List.filter_cons, if_pos hqb]
        · rw [List.filter_cons, if_neg hqb, ih, if_neg hqa, if_neg hqa,
            List.filter_cons, if_neg hqb]

/-- Stability of `Sort`: the subsequence of entries holding any fixed key
appears in the sorted output in its original order. -/
theorem sort_filter_stable (l : StringMapSeq) (k : String) :
    (StringMap.Sort' l).filter (fun p => p.Key == k)
      = l.filter (fun p => p.Key == k) := by
  induction l with
  | nil => rfl
  | cons x xs ih =>
    rw [StringMap.Sort', List.insertionSort, filter_orderedInsert_key]
    rw [StringMap.Sort'] at ih
    by_cases hx : (x.Key == k) = true
    · rw [if_pos hx, ih, List.filter_cons, if_pos hx]
    · rw [if_neg hx, ih, List.filter_cons, if_neg hx]

/-- A sequence sorted under key-`≤` whose keys are pairwise distinct is
sorted under strict key-`<`. -/
theorem sorted_lt_of_sorted_le_nodup (l : StringMapSeq)
    (hs : List.Sorted (fun a b => a.Key ≤ b.Key) l) (hn : StringMap.KeysNodup l) :
    List.Sorted (fun a b => a.Key < b.Key) l := by
  have hne : l.Pairwise (fun a b => a.Key ≠ b.Key) := List.pairwise_map.mp hn
  exact List.Pairwise.imp₂ (fun a b h1 h2 => lt_of_le_of_ne h1 h2) hs hne

/-- C4: `Sort()` stably sorts the backing sequence by key ascending (the
output is key-sorted, is a permutation of the input, and preserves the
relative order of equal-key entries), it is idempotent, and it
canonicalizes: two stores holding the same pairs — with the key-uniqueness
invariant reachable stores enjoy — in any orders sort to element-wise
equal sequences. -/
theorem sort_canonicalization :
    (∀ l : StringMapSeq, List.Sorted (fun a b => a.Key ≤ b.Key) (StringMap.Sort' l))
  ∧ (∀ l : StringMapSeq, List.Perm (StringMap.Sort' l) l)
  ∧ (∀ (l : StringMapSeq) (k : String),
        (StringMap.Sort' l).filter (fun p => p.Key == k)
          = l.filter (fun p => p.Key == k))
  ∧ (∀ l : StringMapSeq, StringMap.Sort' (StringMap.Sort' l) = StringMap.Sort' l)
  ∧ (∀ l1 l2 : StringMapSeq, List.Perm l1 l2 → StringMap.KeysNodup l1 →
        StringMap.Sort' l1 = StringMap.Sort' l2) := by
  haveI : IsTotal StringKeyValueData (fun a b => a.Key ≤ b.Key) :=
    ⟨fun a b => le_total a.Key b.Key⟩
  haveI : IsTrans StringKeyValueData (fun a b => a.Key ≤ b.Key) :=
    ⟨fun a b c hab hbc => le_trans hab hbc⟩
  have hsorted : ∀ l : StringMapSeq,
      List.Sorted (fun a b => a.Key ≤ b.Key) (StringMap.Sort' l) :=
    fun l => List.sorted_insertionSort _ l
  have hperm : ∀ l : StringMapSeq, List.Perm (StringMap.Sort' l) l :=
    fun l => List.perm_insertionSort _ l
  refine ⟨hsorted, hperm, sort_filter_stable, fun l => (hsorted l).insertionSort_eq, ?_⟩
  intro l1 l2 hp hnodup
  haveI : IsAntisymm StringKeyValueData (fun a b => a.Key < b.Key) :=
    ⟨fun a b h1 h2 => absurd h2 (lt_asymm h1)⟩
  have hn1 : StringMap.KeysNodup (StringMap.Sort' l1) :=
    ((hperm l1).map StringKeyValueData.Key).nodup_iff.mpr hnodup
  have hn2 : StringMap.KeysNodup (StringMap.Sort' l2) := by
    have h2 : StringMap.KeysNodup l2 :=
      (hp.map StringKeyValueData.Key).nodup_iff.mp hnodup
    exact ((hperm l2).map StringKeyValueData.Key).nodup_iff.mpr h2
  have hperm12 : List.Perm (StringMap.Sort' l1) (StringMap.Sort' l2) :=
    ((hperm l1).trans hp).trans (hperm l2).symm
  exact List.eq_of_perm_of_sorted hperm12
    (sorted_lt_of_sorted_le_nodup _ (hsorted l1) hn1)
    (sorted_lt_of_sorted_le_nodup _ (hsorted l2) hn2)

/-- Witness for C4: two concrete stores holding the same pairs in opposite
orders sort to the same sequence. -/
theorem sort_canonicalization_witness :
    StringMap.Sort' [{ Key := "b", Value := "2" }, { Key := "a", Value := "1" }]
      = StringMap.Sort' [{ Key := "a", Value := "1" }, { Key := "b", Value := "2" }] :=
  sort_canonicalization.2.2.2.2
    [{ Key := "b", Value := "2" }, { Key := "a", Value := "1" }]
    [{ Key := "a", Value := "1" }, { Key := "b", Value := "2" }]
    (by decide) (by decide)
